import Mathlib

/-!
# mse_attack: hex codec, record parser, hash transform and reporter

A shallow embedding of `src/mse_attack/mse_attack.cpp`.

Conventions of the embedding:

* a `char` is the `Int` it promotes to in an arithmetic expression (so the
  development does not depend on whether `char` is signed);
* an `unsigned char` is a `Nat`; storing an `int` into one reduces it modulo 256;
* a pointer into a buffer is the list of the elements from the pointer onwards
  (`hash_string_to_bytes`, `hash_bytes_to_string`), or an index into the buffer
  (`read_hashes`, the reporting loop of `main`);
* an access outside the object pointed into (undefined behaviour in C++) is the
  failure `Failure.out_of_range`; the exception `throw "invalid hash"` is the
  failure `Failure.invalid_hash`;
* `std::cerr` is the list of diagnostics written so far, `std::cout` the list of
  lines written by the reporting loop (the progress lines carry no data and are
  left out).
-/

set_option maxRecDepth 100000

namespace MseAttack

deriving instance DecidableEq for Except

/-- The two ways an operation can fail to return normally. -/
inductive Failure where
  /-- The exception raised by `throw "invalid hash"`. -/
  | invalid_hash
  /-- A read outside the buffer or sequence (undefined behaviour in the source). -/
  | out_of_range
deriving DecidableEq, Repr

/-- Length in bytes of a SHA-1 digest (`SHA_DIGEST_LENGTH` of `openssl/sha.h`). -/
def SHA_DIGEST_LENGTH : Nat := 20

/-- The struct `infohash`: an array of `SHA_DIGEST_LENGTH` unsigned chars. -/
structure infohash where
  bytes : List Nat
deriving DecidableEq, Repr

/-- One nibble of `hash_string_to_bytes`: the chain
`if (*str - '0' < 10) .. else if (*str - 'A' < 26) .. else if (*str - 'a' < 26) .. else throw`,
returning the `int` that is then shifted or or-ed into the byte.  The comparisons
are on `int`, as in the source. -/
def nibble_of_char (ch : Int) : Except Failure Int :=
  if ch - 48 < 10 then .ok (ch - 48)
  else if ch - 65 < 26 then .ok (ch - 65 + 10)
  else if ch - 97 < 26 then .ok (ch - 97 + 10)
  else .error Failure.invalid_hash

/-- Conversion of an `int` to `unsigned char`: reduction modulo 256. -/
def to_uchar (x : Int) : Nat := (x % 256).toNat

/-- One iteration of the loop of `hash_string_to_bytes`:
`*bytes = hi << 4` followed by `*bytes |= lo`.  The shift is the one of a two-complement
machine (multiplication by 16). -/
def byte_of_chars (c1 c2 : Int) : Except Failure Nat := do
  let hi ← nibble_of_char c1
  let b : Nat := to_uchar (hi * 16)
  let lo ← nibble_of_char c2
  pure (to_uchar (Int.lor (b : Int) lo))

/-- The loop of `hash_string_to_bytes` with `n` bytes still to write; `str` is the
memory from the pointer `str` onwards. -/
def hash_string_to_bytes_loop : Nat → List Int → Except Failure (List Nat)
  | 0, _ => .ok []
  | n + 1, c1 :: c2 :: rest => do
      let b ← byte_of_chars c1 c2
      let bs ← hash_string_to_bytes_loop n rest
      pure (b :: bs)
  | _ + 1, _ => .error Failure.out_of_range

/-- The function `hash_string_to_bytes`: reads the 40 characters at `str` and returns the
20 bytes written through `bytes` (`end = str + 40`, two characters per iteration). -/
def hash_string_to_bytes (str : List Int) : Except Failure (List Nat) :=
  hash_string_to_bytes_loop SHA_DIGEST_LENGTH str

/-- One nibble of `hash_bytes_to_string`:
`if (nibble < 10) *str = '0' + nibble; else *str = 'a' - 10 + nibble;`. -/
def char_of_nibble (nibble : Nat) : Int :=
  if nibble < 10 then 48 + (nibble : Int) else 97 - 10 + (nibble : Int)

/-- The loop of `hash_bytes_to_string` with `n` bytes still to read; `bytes` is the
memory from the pointer `bytes` onwards.  `*bytes >> 4` is `b / 16` and
`*bytes & 0x0F` is `b % 16`, both stored in an `unsigned char`. -/
def hash_bytes_to_string_loop : Nat → List Nat → Except Failure (List Int)
  | 0, _ => .ok []
  | n + 1, b :: rest => do
      let s ← hash_bytes_to_string_loop n rest
      pure (char_of_nibble ((b / 16) % 256) :: char_of_nibble (b % 16) :: s)
  | _ + 1, [] => .error Failure.out_of_range

/-- The function `hash_bytes_to_string`: reads the 20 bytes at `bytes` and returns the
40 characters written through `str`. -/
def hash_bytes_to_string (bytes : List Nat) : Except Failure (List Int) :=
  hash_bytes_to_string_loop SHA_DIGEST_LENGTH bytes

/-! ## Record parser -/

/-- A line written to `std::cerr` by `read_hashes`, with the line number it names. -/
inductive Diagnostic where
  /-- Rendered as `Error parsing line <lnum>: invalid format`. -/
  | invalid_format (lnum : Nat)
  /-- Rendered as `Error parsing line <lnum>: info hash is not 40 characters long or
  contains invalid characters`. -/
  | invalid_chars (lnum : Nat)
deriving DecidableEq, Repr

/-- The line number a diagnostic names. -/
def Diagnostic.line : Diagnostic → Nat
  | .invalid_format lnum => lnum
  | .invalid_chars lnum => lnum

/-- The variables of `read_hashes` that change while it runs: the counter `lnum`, the
vector `hashes` and what has been written to `std::cerr`. -/
structure ParserState where
  lnum : Nat
  hashes : List infohash
  cerr : List Diagnostic
deriving DecidableEq, Repr

/-- The read `*(c - k)` where `c` is at offset `c` of the byte range `buf`:
defined only when the address lies inside the byte range. -/
def deref (buf : List Int) (c k : Nat) : Except Failure Int :=
  if k ≤ c then
    match buf[c - k]? with
    | some x => .ok x
    | none => .error Failure.out_of_range
  else .error Failure.out_of_range

/-- The body of the `for` loop of `read_hashes` at offset `c`. -/
def read_hashes_body (buf : List Int) (c : Nat) (st : ParserState) :
    Except Failure ParserState := do
  let ch ← deref buf c 0
  if ch = 10 then
    let lnum := st.lnum + 1
    let prev ← deref buf c 1
    if prev = 124 then
      pure { st with lnum := lnum }
    else
      let delim ← deref buf c 41
      if delim ≠ 124 then
        pure { st with lnum := lnum, cerr := st.cerr ++ [Diagnostic.invalid_format lnum] }
      else
        match hash_string_to_bytes (buf.drop (c - 40)) with
        | .ok bytes =>
            pure { st with lnum := lnum, hashes := st.hashes ++ [infohash.mk bytes] }
        | .error Failure.invalid_hash =>
            pure { st with lnum := lnum, cerr := st.cerr ++ [Diagnostic.invalid_chars lnum] }
        | .error Failure.out_of_range => .error Failure.out_of_range
  else
    pure st

/-- The `for (; c != end; ++c)` loop of `read_hashes`, with `n = end - c` iterations
still to run. -/
def read_hashes_loop (buf : List Int) : Nat → Nat → ParserState → Except Failure ParserState
  | 0, _, st => .ok st
  | n + 1, c, st => do
      let st1 ← read_hashes_body buf c st
      read_hashes_loop buf n (c + 1) st1

/-- The function `read_hashes` on the byte range `buf` (`c` its first byte, `end` one past
its last), appending to `hashes`. -/
def read_hashes (buf : List Int) (hashes : List infohash) : Except Failure ParserState :=
  read_hashes_loop buf buf.length 0 { lnum := 0, hashes := hashes, cerr := [] }

/-! ## Hash transform -/

/-- The call `SHA1_Init`: a context that has absorbed nothing. -/
def SHA1_Init : List Nat := []

/-- The call `SHA1_Update(&ctx, data, len)`: the context absorbs the first `len` bytes at `data`. -/
def SHA1_Update (ctx : List Nat) (data : List Nat) (len : Nat) : List Nat :=
  ctx ++ data.take len

/-- The call `SHA1_Final(md, &ctx)`: the digest of everything absorbed; `Digest` is the SHA-1
function, which the development leaves uninterpreted. -/
def SHA1_Final (Digest : List Nat → List Nat) (ctx : List Nat) : List Nat :=
  Digest ctx

/-- The bytes of the string literal `"req2"`. -/
def req2 : List Nat := [114, 101, 113, 50]

/-- The function `compute_hash`. -/
def compute_hash (Digest : List Nat → List Nat) (h_in : infohash) : infohash :=
  let ctx := SHA1_Init
  let ctx := SHA1_Update ctx req2 4
  let ctx := SHA1_Update ctx h_in.bytes 20
  infohash.mk (SHA1_Final Digest ctx)

/-- The algorithm `std::transform(first, last, back_inserter(out), f)`: the elements of the
input range are visited in order and `f` of each is pushed onto the back of `out`. -/
def transform {α β : Type} (f : α → β) : List α → List β → List β
  | [], out => out
  | x :: xs, out => transform f xs (out ++ [f x])

/-- The sequence `h_out` that `main` builds from `h_in`. -/
def main_transform (Digest : List Nat → List Nat) (h_in : List infohash) : List infohash :=
  transform (compute_hash Digest) h_in []

/-! ## Reporter -/

/-- The characters of the string literal `" -> "`. -/
def arrow : List Int := [32, 45, 62, 32]

/-- The body of the reporting loop of `main` with both iterators at position `i`:
the line `encode(h_out[i]) -> encode(h_in[i])`. -/
def report_body (h_in h_out : List infohash) (i : Nat) : Except Failure (List Int) := do
  let o ← match h_out[i]? with
    | some h => pure h
    | none => .error Failure.out_of_range
  let s_out ← hash_bytes_to_string o.bytes
  let x ← match h_in[i]? with
    | some h => pure h
    | none => .error Failure.out_of_range
  let s_in ← hash_bytes_to_string x.bytes
  pure (s_out ++ arrow ++ s_in)

/-- The reporting loop of `main`, `for (h_in_iter = h_in.begin(), h_out_iter = h_out.begin();
h_in_iter != h_in.begin() + 10; ++h_in_iter, ++h_out_iter)`, with both iterators at
position `i` and `n = 10 - i` iterations still to run; `out` holds the lines written. -/
def report_loop (h_in h_out : List infohash) :
    Nat → Nat → List (List Int) → Except Failure (List (List Int))
  | 0, _, out => .ok out
  | n + 1, i, out => do
      let line ← report_body h_in h_out i
      report_loop h_in h_out n (i + 1) (out ++ [line])

/-- The lines the reporting loop of `main` writes for the sequences `h_in` and `h_out`. -/
def report (h_in h_out : List infohash) : Except Failure (List (List Int)) :=
  report_loop h_in h_out 10 0 []

/-! ## Vocabulary of the specification -/

/-- A character of `0-9`, `A-F`, `a-f`. -/
def is_hex_char (ch : Int) : Prop :=
  (48 ≤ ch ∧ ch ≤ 57) ∨ (65 ≤ ch ∧ ch ≤ 70) ∨ (97 ≤ ch ∧ ch ≤ 102)

instance (ch : Int) : Decidable (is_hex_char ch) := by
  unfold is_hex_char; infer_instance

/-- A 40-character string of hexadecimal digits. -/
def is_hex_string (s : List Int) : Prop :=
  s.length = 40 ∧ ∀ ch ∈ s, is_hex_char ch

instance (s : List Int) : Decidable (is_hex_string s) := by
  unfold is_hex_string; infer_instance

/-- ASCII lower-casing of one character: `A-Z` become `a-z`, the rest is unchanged. -/
def lowercase_char (ch : Int) : Int :=
  if 65 ≤ ch ∧ ch ≤ 90 then ch + 32 else ch

/-- The string `s` with every letter lower-cased. -/
def lowercase (s : List Int) : List Int := s.map lowercase_char

/-- The value of a hexadecimal digit: `0-9` are 0 to 9, `A-F` and `a-f` are 10 to 15. -/
def hex_value (ch : Int) : Nat :=
  if 48 ≤ ch ∧ ch ≤ 57 then (ch - 48).toNat
  else if 65 ≤ ch ∧ ch ≤ 70 then (ch - 65 + 10).toNat
  else (ch - 97 + 10).toNat

/-- The decoding the specification describes: two characters at a time, the most
significant nibble first. -/
def big_endian_bytes : List Int → List Nat
  | c1 :: c2 :: rest => (16 * hex_value c1 + hex_value c2) :: big_endian_bytes rest
  | _ => []

/-- A record of the index file. -/
inductive Record where
  /-- An identifier record: `payload`, `|`, a 40-character field, newline. -/
  | ident (payload : List Int) (field : List Int)
  /-- An identifier-less record: `payload`, `|`, newline. -/
  | bare (payload : List Int)

/-- The bytes of a record in the file. -/
def Record.render : Record → List Int
  | .ident payload field => payload ++ [124] ++ field ++ [10]
  | .bare payload => payload ++ [124] ++ [10]

/-- A record is well formed when its payload has no newline and its field, if any,
is 40 hexadecimal digits. -/
def Record.well_formed : Record → Prop
  | .ident payload field => (10 : Int) ∉ payload ∧ is_hex_string field
  | .bare payload => (10 : Int) ∉ payload

/-- The identifier an identifier record carries (none for an identifier-less record
or when the field does not decode). -/
def Record.identifier : Record → Option infohash
  | .ident _ field =>
      match hash_string_to_bytes field with
      | .ok bytes => some (infohash.mk bytes)
      | .error _ => none
  | .bare _ => none

/-- The bytes of a file made of the given records. -/
def render_file (records : List Record) : List Int :=
  (records.map Record.render).flatten

/-- Two 20-byte identifiers used as a concrete input of the transform. -/
def sample_hashes : List infohash :=
  [infohash.mk (List.replicate 20 7), infohash.mk (List.replicate 20 9)]

/-- A stand-in for the digest on the concrete input: the first 20 bytes of the message. -/
def sample_digest (m : List Nat) : List Nat := m.take 20

/-- The characters of an ASCII string, as the `char` values of the byte range. -/
def chars (s : String) : List Int := s.toList.map (fun ch => (ch.toNat : Int))

instance (r : Record) : Decidable r.well_formed := by
  cases r <;> unfold Record.well_formed <;> infer_instance

/-! ## Concrete inputs -/

/-- The three-line file of the end-to-end scenario: an identifier record, an
identifier-less record and a line whose last field has 38 characters. -/
def scenario_file : List Int :=
  chars ("tracker|2aae6c35c94fcfb415dbe95f408b9ce91ee846ed\n" ++
    "tracker|\n" ++
    "tracker|invalidinvalidinvalidinvalidinvalidinv\n")

/-- The 20 bytes `2a ae 6c 35 c9 4f cf b4 15 db e9 5f 40 8b 9c e9 1e e8 46 ed`. -/
def scenario_hash : infohash :=
  infohash.mk [0x2a, 0xae, 0x6c, 0x35, 0xc9, 0x4f, 0xcf, 0xb4, 0x15, 0xdb, 0xe9, 0x5f, 0x40,
    0x8b, 0x9c, 0xe9, 0x1e, 0xe8, 0x46, 0xed]

/-- A three-line file whose second line has the delimiter in place and a 40-character
field made of the letters of `invalid`, most of which are not hexadecimal digits. -/
def sandwich_file : List Int :=
  chars ("tracker|2aae6c35c94fcfb415dbe95f408b9ce91ee846ed\n" ++
    "tracker|invalidinvalidinvalidinvalidinvalidinval\n" ++
    "tracker|da39a3ee5e6b4b0d3255bfef95601890afd80709\n")

/-- The second line of `sandwich_file`, without its newline. -/
def sandwich_line : List Int := chars "tracker|invalidinvalidinvalidinvalidinvalidinval"

/-- Two well-formed records: an identifier record and an identifier-less record. -/
def sample_records : List Record :=
  [Record.ident (chars "tracker") (chars "2aae6c35c94fcfb415dbe95f408b9ce91ee846ed"),
   Record.bare (chars "tracker")]

/-! ## Hex codec: lemmas -/

theorem byte_of_chars_char_of_nibble :
    ∀ b : Nat, b < 256 →
      byte_of_chars (char_of_nibble ((b / 16) % 256)) (char_of_nibble (b % 16)) = .ok b := by
  decide

theorem string_loop_bytes_loop (n : Nat) :
    ∀ bs : List Nat, bs.length = n → (∀ x ∈ bs, x < 256) →
      ∃ s, hash_bytes_to_string_loop n bs = .ok s ∧ s.length = 2 * n ∧
        hash_string_to_bytes_loop n s = .ok bs := by
  induction n with
  | zero =>
      intro bs hlen _
      cases bs with
      | nil => exact ⟨[], rfl, rfl, rfl⟩
      | cons b rest => simp at hlen
  | succ n ih =>
      intro bs hlen hlt
      cases bs with
      | nil => simp at hlen
      | cons b rest =>
          have hb : b < 256 := hlt b (by simp)
          obtain ⟨s, hs, hslen, hdec⟩ :=
            ih rest (by simpa using hlen) (fun x hx => hlt x (by simp [hx]))
          refine ⟨char_of_nibble ((b / 16) % 256) :: char_of_nibble (b % 16) :: s, ?_, ?_, ?_⟩
          · simp [hash_bytes_to_string_loop, hs, bind, Except.bind, pure, Except.pure]
          · simp [hslen]; omega
          · simp [hash_string_to_bytes_loop, byte_of_chars_char_of_nibble b hb, hdec, bind,
              Except.bind, pure, Except.pure]

theorem hex_char_facts (ch : Int) (h : is_hex_char ch) :
    nibble_of_char ch = .ok (hex_value ch : Int) ∧ hex_value ch < 16 ∧
      char_of_nibble (hex_value ch) = lowercase_char ch ∧
      is_hex_char (lowercase_char ch) ∧ hex_value (lowercase_char ch) = hex_value ch := by
  unfold is_hex_char at h
  rcases h with ⟨h1, h2⟩ | ⟨h1, h2⟩ | ⟨h1, h2⟩ <;> interval_cases ch <;> decide

theorem or_of_nibbles :
    ∀ hi : Nat, hi < 16 → ∀ lo : Nat, lo < 16 →
      to_uchar (Int.lor ((to_uchar ((hi : Int) * 16) : Nat) : Int) (lo : Int)) = 16 * hi + lo := by
  decide

theorem byte_of_hex_chars (c1 c2 : Int) (h1 : is_hex_char c1) (h2 : is_hex_char c2) :
    byte_of_chars c1 c2 = .ok (16 * hex_value c1 + hex_value c2) := by
  obtain ⟨e1, b1, -⟩ := hex_char_facts c1 h1
  obtain ⟨e2, b2, -⟩ := hex_char_facts c2 h2
  simp [byte_of_chars, e1, e2, bind, Except.bind, pure, Except.pure,
    or_of_nibbles _ b1 _ b2]

theorem bytes_loop_of_hex (n : Nat) :
    ∀ s : List Int, s.length = 2 * n → (∀ ch ∈ s, is_hex_char ch) →
      hash_string_to_bytes_loop n s = .ok (big_endian_bytes s) ∧
        hash_bytes_to_string_loop n (big_endian_bytes s) = .ok (lowercase s) ∧
        big_endian_bytes (lowercase s) = big_endian_bytes s := by
  induction n with
  | zero =>
      intro s hlen _
      have : s = [] := List.length_eq_zero.mp (by simpa using hlen)
      subst this
      exact ⟨rfl, rfl, rfl⟩
  | succ n ih =>
      intro s hlen hhex
      match s, hlen, hhex with
      | c1 :: c2 :: rest, hlen, hhex =>
          have h1 : is_hex_char c1 := hhex c1 (by simp)
          have h2 : is_hex_char c2 := hhex c2 (by simp)
          obtain ⟨-, b1, l1, -, v1⟩ := hex_char_facts c1 h1
          obtain ⟨-, b2, l2, -, v2⟩ := hex_char_facts c2 h2
          obtain ⟨d, e, f⟩ := ih rest (by simp at hlen; omega) (fun x hx => hhex x (by simp [hx]))
          have hq : (16 * hex_value c1 + hex_value c2) / 16 % 256 = hex_value c1 := by omega
          have hr : (16 * hex_value c1 + hex_value c2) % 16 = hex_value c2 := by omega
          refine ⟨?_, ?_, ?_⟩
          · simp [hash_string_to_bytes_loop, byte_of_hex_chars c1 c2 h1 h2, d, big_endian_bytes,
              bind, Except.bind, pure, Except.pure]
          · simp [hash_bytes_to_string_loop, big_endian_bytes, e, hq, hr, l1, l2, lowercase,
              bind, Except.bind, pure, Except.pure]
          · simp only [lowercase, List.map_cons, big_endian_bytes, v1, v2]
            simp only [lowercase] at f
            rw [f]
      | [_], hlen, _ => simp at hlen; omega
      | [], hlen, _ => simp at hlen

/-! ## Which characters the decoder rejects -/

theorem nibble_of_char_throws_iff (ch : Int) :
    nibble_of_char ch = .error Failure.invalid_hash ↔ 123 ≤ ch := by
  unfold nibble_of_char
  constructor
  · intro h
    split at h
    · cases h
    · split at h
      · cases h
      · split at h
        · cases h
        · omega
  · intro h
    rw [if_neg (by omega), if_neg (by omega), if_neg (by omega)]

theorem nibble_of_char_ok_of_lt (ch : Int) (h : ch < 123) :
    ∃ v, nibble_of_char ch = .ok v := by
  unfold nibble_of_char
  by_cases h1 : ch - 48 < 10
  · exact ⟨_, if_pos h1⟩
  · by_cases h2 : ch - 65 < 26
    · exact ⟨_, by rw [if_neg h1, if_pos h2]⟩
    · exact ⟨_, by rw [if_neg h1, if_neg h2, if_pos (by omega)]⟩

theorem byte_of_chars_ok_of_lt (c1 c2 : Int) (h1 : c1 < 123) (h2 : c2 < 123) :
    ∃ b, byte_of_chars c1 c2 = .ok b := by
  obtain ⟨v1, e1⟩ := nibble_of_char_ok_of_lt c1 h1
  obtain ⟨v2, e2⟩ := nibble_of_char_ok_of_lt c2 h2
  exact ⟨to_uchar (Int.lor ((to_uchar (v1 * 16) : Nat) : Int) v2), by
    simp [byte_of_chars, e1, e2, bind, Except.bind, pure, Except.pure]⟩

theorem byte_of_chars_throws (c1 c2 : Int) (h : 123 ≤ c1 ∨ 123 ≤ c2) :
    byte_of_chars c1 c2 = .error Failure.invalid_hash := by
  by_cases h1 : 123 ≤ c1
  · simp [byte_of_chars, (nibble_of_char_throws_iff c1).mpr h1, bind, Except.bind]
  · have h2 : 123 ≤ c2 := by omega
    obtain ⟨v1, e1⟩ := nibble_of_char_ok_of_lt c1 (by omega)
    simp [byte_of_chars, e1, (nibble_of_char_throws_iff c2).mpr h2, bind, Except.bind]

theorem bytes_loop_throws_iff (n : Nat) :
    ∀ s : List Int, 2 * n ≤ s.length →
      ((∀ ch ∈ s.take (2 * n), ch < 123) → ∃ b, hash_string_to_bytes_loop n s = .ok b) ∧
      ((∃ ch ∈ s.take (2 * n), 123 ≤ ch) →
        hash_string_to_bytes_loop n s = .error Failure.invalid_hash) := by
  induction n with
  | zero =>
      intro s _
      exact ⟨fun _ => ⟨[], rfl⟩, fun h => by simp at h⟩
  | succ n ih =>
      intro s hlen
      match s, hlen with
      | c1 :: c2 :: rest, hlen =>
          obtain ⟨ihok, iherr⟩ := ih rest (by simp at hlen; omega)
          have htake : (c1 :: c2 :: rest).take (2 * (n + 1)) = c1 :: c2 :: rest.take (2 * n) := by
            rw [show 2 * (n + 1) = 2 * n + 1 + 1 by omega]
            rfl
          rw [htake]
          constructor
          · intro h
            obtain ⟨b, hb⟩ := byte_of_chars_ok_of_lt c1 c2 (h c1 (by simp)) (h c2 (by simp))
            obtain ⟨bs, hbs⟩ := ihok (fun ch hch => h ch (by simp [hch]))
            exact ⟨b :: bs, by
              simp [hash_string_to_bytes_loop, hb, hbs, bind, Except.bind, pure, Except.pure]⟩
          · rintro ⟨ch, hmem, hch⟩
            by_cases h12 : 123 ≤ c1 ∨ 123 ≤ c2
            · simp [hash_string_to_bytes_loop, byte_of_chars_throws c1 c2 h12, bind, Except.bind]
            · obtain ⟨b, hb⟩ := byte_of_chars_ok_of_lt c1 c2 (by omega) (by omega)
              have hrest : ch ∈ rest.take (2 * n) := by
                rcases List.mem_cons.mp hmem with rfl | hmem
                · omega
                · rcases List.mem_cons.mp hmem with rfl | hmem
                  · omega
                  · exact hmem
              simp [hash_string_to_bytes_loop, hb, iherr ⟨ch, hrest, hch⟩, bind, Except.bind]
      | [_], hlen => simp at hlen; omega
      | [], hlen => simp at hlen

/-- The decoder throws exactly when one of the 40 characters has a code of 123 or more
(the characters from the opening brace on); every other string of 40 characters, with
or without hexadecimal digits, decodes. -/
theorem hash_string_to_bytes_throws_iff (s : List Int) (hlen : 40 ≤ s.length) :
    (hash_string_to_bytes s = .error Failure.invalid_hash ↔ ∃ ch ∈ s.take 40, 123 ≤ ch) ∧
      ((∃ b, hash_string_to_bytes s = .ok b) ↔ ∀ ch ∈ s.take 40, ch < 123) := by
  obtain ⟨hok, herr⟩ := bytes_loop_throws_iff 20 s (by omega)
  have hcase : (∀ ch ∈ s.take 40, ch < 123) ∨ ∃ ch ∈ s.take 40, 123 ≤ ch := by
    by_cases h : ∃ ch ∈ s.take 40, 123 ≤ ch
    · exact Or.inr h
    · left
      intro ch hch
      by_contra hlt
      exact h ⟨ch, hch, by omega⟩
  unfold hash_string_to_bytes SHA_DIGEST_LENGTH
  constructor
  · constructor
    · intro h
      rcases hcase with hall | hex
      · obtain ⟨b, hb⟩ := hok hall
        rw [hb] at h
        cases h
      · exact hex
    · exact herr
  · constructor
    · rintro ⟨b, hb⟩ ch hch
      by_contra hlt
      rw [herr ⟨ch, hch, by omega⟩] at hb
      cases hb
    · exact hok

theorem big_endian_bytes_length (n : Nat) :
    ∀ s : List Int, s.length = 2 * n → (big_endian_bytes s).length = n := by
  induction n with
  | zero =>
      intro s hlen
      have : s = [] := List.length_eq_zero.mp (by simpa using hlen)
      subst this
      rfl
  | succ n ih =>
      intro s hlen
      match s, hlen with
      | c1 :: c2 :: rest, hlen =>
          simp only [big_endian_bytes, List.length_cons]
          rw [ih rest (by simp at hlen; omega)]
      | [_], hlen => simp at hlen; omega
      | [], hlen => simp at hlen

theorem lowercase_is_hex_string (s : List Int) (hs : is_hex_string s) :
    is_hex_string (lowercase s) := by
  refine ⟨by simpa [lowercase] using hs.1, ?_⟩
  intro ch hch
  simp only [lowercase, List.mem_map] at hch
  obtain ⟨x, hx, rfl⟩ := hch
  exact (hex_char_facts x (hs.2 x hx)).2.2.2.1

/-! ## Hex codec: the round-trip laws -/

/-- C1. Hex round trip: encoding any 20 bytes with `hash_bytes_to_string` succeeds and
gives a 40-character string which `hash_string_to_bytes` decodes, successfully, to
exactly the 20 bytes encoded. -/
theorem hex_round_trip (b : List Nat) (hlen : b.length = 20) (hb : ∀ x ∈ b, x < 256) :
    ∃ s, hash_bytes_to_string b = .ok s ∧ s.length = 40 ∧ hash_string_to_bytes s = .ok b :=
  string_loop_bytes_loop 20 b hlen hb

theorem hex_round_trip_witness :
    ∃ s, hash_bytes_to_string [42, 174, 108, 53, 201, 79, 207, 180, 21, 219, 233, 95, 64, 139,
        156, 233, 30, 232, 70, 237] = .ok s ∧ s.length = 40 ∧
      hash_string_to_bytes s = .ok [42, 174, 108, 53, 201, 79, 207, 180, 21, 219, 233, 95, 64,
        139, 156, 233, 30, 232, 70, 237] :=
  hex_round_trip _ (by decide) (by decide)

/-- C2 (evaluation of the code at a failing input). The 40-character string
`2aae6c35c94fcfb415dbe95f408b9ce91ee846eg` contains the character `g`, which is not a
hexadecimal digit, and `hash_string_to_bytes` does not throw on it: it returns 20 bytes. -/
theorem decode_accepts_letter_g :
    (chars "2aae6c35c94fcfb415dbe95f408b9ce91ee846eg").length = 40 ∧
      (∃ ch ∈ chars "2aae6c35c94fcfb415dbe95f408b9ce91ee846eg", ¬ is_hex_char ch) ∧
      hash_string_to_bytes (chars "2aae6c35c94fcfb415dbe95f408b9ce91ee846eg") =
        .ok [42, 174, 108, 53, 201, 79, 207, 180, 21, 219, 233, 95, 64, 139, 156, 233, 30,
          232, 70, 240] :=
  ⟨rfl, ⟨103, by decide, by decide⟩, rfl⟩

/-- C3. Reverse round trip with case folding: a 40-character string of hexadecimal digits
decodes successfully, to the 20 bytes read two characters at a time with the most
significant nibble first; encoding those bytes gives the string lower-cased; the
lower-cased string decodes to the same bytes; and so does every other spelling of the
string that differs from it in the case of its letters only. -/
theorem hex_reverse_round_trip (s : List Int) (hs : is_hex_string s) :
    hash_string_to_bytes s = .ok (big_endian_bytes s) ∧
      (big_endian_bytes s).length = 20 ∧
      hash_bytes_to_string (big_endian_bytes s) = .ok (lowercase s) ∧
      hash_string_to_bytes (lowercase s) = hash_string_to_bytes s ∧
      ∀ s2, is_hex_string s2 → lowercase s2 = lowercase s →
        hash_string_to_bytes s2 = hash_string_to_bytes s := by
  obtain ⟨d, e, f⟩ := bytes_loop_of_hex 20 s hs.1 hs.2
  have hl := lowercase_is_hex_string s hs
  obtain ⟨d2, -, -⟩ := bytes_loop_of_hex 20 (lowercase s) hl.1 hl.2
  have hd : hash_string_to_bytes s = .ok (big_endian_bytes s) := d
  refine ⟨hd, big_endian_bytes_length 20 s hs.1, e, ?_, ?_⟩
  · rw [hd]
    unfold hash_string_to_bytes SHA_DIGEST_LENGTH
    rw [d2, f]
  · intro s2 hs2 hlow
    obtain ⟨d3, -, f3⟩ := bytes_loop_of_hex 20 s2 hs2.1 hs2.2
    have hd3 : hash_string_to_bytes s2 = .ok (big_endian_bytes s2) := d3
    rw [hd3, hd, ← f3, hlow, f]

theorem hex_reverse_round_trip_witness :
    hash_string_to_bytes (chars "2AAE6C35C94FCFB415DBE95F408B9CE91EE846ED") =
        .ok (big_endian_bytes (chars "2AAE6C35C94FCFB415DBE95F408B9CE91EE846ED")) ∧
      (big_endian_bytes (chars "2AAE6C35C94FCFB415DBE95F408B9CE91EE846ED")).length = 20 ∧
      hash_bytes_to_string (big_endian_bytes (chars "2AAE6C35C94FCFB415DBE95F408B9CE91EE846ED")) =
        .ok (lowercase (chars "2AAE6C35C94FCFB415DBE95F408B9CE91EE846ED")) ∧
      hash_string_to_bytes (lowercase (chars "2AAE6C35C94FCFB415DBE95F408B9CE91EE846ED")) =
        hash_string_to_bytes (chars "2AAE6C35C94FCFB415DBE95F408B9CE91EE846ED") ∧
      ∀ s2, is_hex_string s2 →
        lowercase s2 = lowercase (chars "2AAE6C35C94FCFB415DBE95F408B9CE91EE846ED") →
        hash_string_to_bytes s2 =
          hash_string_to_bytes (chars "2AAE6C35C94FCFB415DBE95F408B9CE91EE846ED") :=
  hex_reverse_round_trip _ (by decide)

/-! ## Hash transform -/

theorem transform_eq_append_map {α β : Type} (f : α → β) (xs : List α) :
    ∀ out : List β, transform f xs out = out ++ xs.map f := by
  induction xs with
  | nil => intro out; simp [transform]
  | cons x xs ih => intro out; simp [transform, ih]

theorem compute_hash_eq (Digest : List Nat → List Nat) (h : infohash)
    (h20 : h.bytes.length = 20) :
    compute_hash Digest h = infohash.mk (Digest (req2 ++ h.bytes)) := by
  simp [compute_hash, SHA1_Final, SHA1_Update, SHA1_Init, req2, ← h20]

/-- C4. Positional correspondence: for any digest function and any sequence `h_in` of
20-byte identifiers, the sequence `main` builds with `transform` and `compute_hash` has
the length of `h_in`, and its element at every index `i` is the digest of the 24 bytes
`req2` followed by the bytes of `h_in[i]`. -/
theorem transform_positional (Digest : List Nat → List Nat) (h_in : List infohash)
    (h20 : ∀ h ∈ h_in, h.bytes.length = 20) :
    (main_transform Digest h_in).length = h_in.length ∧
      ∀ i : Nat, ∀ hi : i < h_in.length,
        (req2 ++ h_in[i].bytes).length = 24 ∧
        (main_transform Digest h_in)[i]? = some (infohash.mk (Digest (req2 ++ h_in[i].bytes))) := by
  have hm : main_transform Digest h_in = h_in.map (compute_hash Digest) := by
    simp [main_transform, transform_eq_append_map]
  refine ⟨by simp [hm], ?_⟩
  intro i hi
  have hl : h_in[i].bytes.length = 20 := h20 _ (List.getElem_mem hi)
  refine ⟨by simp [req2, hl], ?_⟩
  rw [hm, List.getElem?_map, List.getElem?_eq_getElem hi]
  simp only [Option.map_some']
  rw [compute_hash_eq Digest _ hl]

theorem transform_positional_witness :
    (main_transform sample_digest sample_hashes).length = sample_hashes.length ∧
      ∀ i : Nat, ∀ hi : i < sample_hashes.length,
        (req2 ++ sample_hashes[i].bytes).length = 24 ∧
        (main_transform sample_digest sample_hashes)[i]? =
          some (infohash.mk (sample_digest (req2 ++ sample_hashes[i].bytes))) :=
  transform_positional sample_digest sample_hashes (by decide)

/-! ## Record parser: lemmas -/

theorem deref_append (a b : List Int) (c k : Nat) (hc : c < a.length) :
    deref (a ++ b) c k = deref a c k := by
  unfold deref
  split
  · rw [List.getElem?_append_left (by omega)]
  · rfl

theorem deref_of_getElem? (buf : List Int) (c k : Nat) (x : Int) (hk : k ≤ c)
    (hx : buf[c - k]? = some x) : deref buf c k = .ok x := by
  simp [deref, hk, hx]

theorem bytes_loop_append (n : Nat) :
    ∀ l r : List Int, 2 * n ≤ l.length →
      hash_string_to_bytes_loop n (l ++ r) = hash_string_to_bytes_loop n l := by
  induction n with
  | zero => intro l r _; rfl
  | succ n ih =>
      intro l r hl
      match l, hl with
      | c1 :: c2 :: rest, hl =>
          show hash_string_to_bytes_loop (n + 1) (c1 :: c2 :: (rest ++ r)) = _
          simp only [hash_string_to_bytes_loop]
          rw [ih rest r (by simp at hl; omega)]
      | [_], hl => simp at hl; omega
      | [], hl => simp at hl

theorem read_hashes_body_append (a b : List Int) (c : Nat) (st : ParserState)
    (hc : c < a.length) :
    read_hashes_body (a ++ b) c st = read_hashes_body a c st := by
  unfold read_hashes_body
  simp only [deref_append a b c _ hc]
  by_cases h41 : 41 ≤ c
  · have hd : (a ++ b).drop (c - 40) = a.drop (c - 40) ++ b :=
      List.drop_append_of_le_length (by omega)
    have hh : hash_string_to_bytes ((a ++ b).drop (c - 40)) =
        hash_string_to_bytes (a.drop (c - 40)) := by
      rw [hd]
      exact bytes_loop_append 20 _ _ (by simp; omega)
    rw [hh]
  · have he : deref a c 41 = .error Failure.out_of_range := by simp [deref, h41]
    simp [he, bind, Except.bind]

theorem read_hashes_loop_add (buf : List Int) (n m : Nat) :
    ∀ (c : Nat) (st : ParserState),
      read_hashes_loop buf (n + m) c st =
        (read_hashes_loop buf n c st).bind (fun st1 => read_hashes_loop buf m (c + n) st1) := by
  induction n with
  | zero => intro c st; simp [read_hashes_loop, Except.bind]
  | succ n ih =>
      intro c st
      rw [show n + 1 + m = (n + m) + 1 by omega]
      simp only [read_hashes_loop, bind]
      cases read_hashes_body buf c st with
      | error e => rfl
      | ok st1 =>
          simp only [Except.bind]
          rw [ih (c + 1) st1, show c + 1 + n = c + (n + 1) by omega]
          rfl

theorem read_hashes_loop_append (a b : List Int) (n : Nat) :
    ∀ (c : Nat) (st : ParserState), c + n ≤ a.length →
      read_hashes_loop (a ++ b) n c st = read_hashes_loop a n c st := by
  induction n with
  | zero => intro c st _; rfl
  | succ n ih =>
      intro c st h
      simp only [read_hashes_loop, bind]
      rw [read_hashes_body_append a b c st (by omega)]
      cases read_hashes_body a c st with
      | error e => rfl
      | ok st1 =>
          simp only [Except.bind]
          exact ih (c + 1) st1 (by omega)

theorem read_hashes_body_other (buf : List Int) (c : Nat) (x : Int) (st : ParserState)
    (hx : buf[c]? = some x) (hne : x ≠ 10) : read_hashes_body buf c st = .ok st := by
  have hd : deref buf c 0 = .ok x := deref_of_getElem? buf c 0 x (Nat.zero_le _) (by simpa using hx)
  simp [read_hashes_body, hd, hne, bind, Except.bind, pure, Except.pure]

theorem read_hashes_loop_skip (mid suf : List Int) (hmid : (10 : Int) ∉ mid) :
    ∀ (pre : List Int) (st : ParserState),
      read_hashes_loop (pre ++ (mid ++ suf)) mid.length pre.length st = .ok st := by
  induction mid with
  | nil => intro pre st; rfl
  | cons x mid ih =>
      intro pre st
      have hx : x ≠ 10 := fun h => hmid (by simp [h])
      have hm : (10 : Int) ∉ mid := fun h => hmid (by simp [h])
      have hb : read_hashes_body (pre ++ (x :: mid ++ suf)) pre.length st = .ok st :=
        read_hashes_body_other _ _ x st
          (by rw [List.getElem?_append_right (Nat.le_refl _)]; simp) hx
      simp only [List.length_cons, read_hashes_loop, bind, hb, Except.bind]
      have := ih hm (pre ++ [x]) st
      simpa using this

theorem hex_char_ne_delimiter (ch : Int) (h : is_hex_char ch) : ch ≠ 124 ∧ ch ≠ 10 := by
  unfold is_hex_char at h
  omega

theorem read_hashes_body_ident (L field suf : List Int) (st : ParserState)
    (hf : is_hex_string field) :
    read_hashes_body (L ++ 124 :: (field ++ 10 :: suf)) (L.length + 41) st =
      .ok { lnum := st.lnum + 1,
            hashes := st.hashes ++ [infohash.mk (big_endian_bytes field)],
            cerr := st.cerr } := by
  obtain ⟨hlen, hhex⟩ := hf
  have h0 : deref (L ++ 124 :: (field ++ 10 :: suf)) (L.length + 41) 0 = .ok 10 := by
    apply deref_of_getElem? _ _ _ _ (Nat.zero_le _)
    rw [List.getElem?_append_right (by omega)]
    simp only [Nat.sub_zero, Nat.add_sub_cancel_left, List.getElem?_cons_succ]
    rw [List.getElem?_append_right (by omega)]
    simp [hlen]
  obtain ⟨last, hlast, hmem⟩ : ∃ x, field[39]? = some x ∧ x ∈ field := by
    have h39 : 39 < field.length := by omega
    exact ⟨field[39], List.getElem?_eq_getElem h39, List.getElem_mem h39⟩
  have h1 : deref (L ++ 124 :: (field ++ 10 :: suf)) (L.length + 41) 1 = .ok last := by
    apply deref_of_getElem? _ _ _ _ (by omega)
    rw [List.getElem?_append_right (by omega)]
    rw [show L.length + 41 - 1 - L.length = 39 + 1 by omega, List.getElem?_cons_succ]
    rw [List.getElem?_append_left (by omega)]
    exact hlast
  have h41 : deref (L ++ 124 :: (field ++ 10 :: suf)) (L.length + 41) 41 = .ok 124 := by
    apply deref_of_getElem? _ _ _ _ (by omega)
    rw [List.getElem?_append_right (by omega)]
    simp
  have hne : last ≠ 124 := (hex_char_ne_delimiter last (hhex last hmem)).1
  have hdrop : (L ++ 124 :: (field ++ 10 :: suf)).drop (L.length + 41 - 40) =
      field ++ 10 :: suf := by
    rw [show L.length + 41 - 40 = L.length + 1 by omega]
    rw [List.drop_append_eq_append_drop]
    simp
  have hdec : hash_string_to_bytes (field ++ 10 :: suf) = .ok (big_endian_bytes field) := by
    unfold hash_string_to_bytes SHA_DIGEST_LENGTH
    rw [bytes_loop_append 20 field _ (by omega)]
    exact (bytes_loop_of_hex 20 field hlen hhex).1
  simp [read_hashes_body, h0, h1, h41, hne, hdrop, hdec, bind, Except.bind, pure, Except.pure]

theorem read_hashes_body_bare (L suf : List Int) (st : ParserState) :
    read_hashes_body (L ++ 124 :: 10 :: suf) (L.length + 1) st =
      .ok { lnum := st.lnum + 1, hashes := st.hashes, cerr := st.cerr } := by
  have h0 : deref (L ++ 124 :: 10 :: suf) (L.length + 1) 0 = .ok 10 := by
    apply deref_of_getElem? _ _ _ _ (Nat.zero_le _)
    rw [List.getElem?_append_right (by omega)]
    simp
  have h1 : deref (L ++ 124 :: 10 :: suf) (L.length + 1) 1 = .ok 124 := by
    apply deref_of_getElem? _ _ _ _ (by omega)
    rw [List.getElem?_append_right (by omega)]
    simp
  simp [read_hashes_body, h0, h1, bind, Except.bind, pure, Except.pure]

theorem identifier_of_well_formed (payload field : List Int) (hf : is_hex_string field) :
    (Record.ident payload field).identifier = some (infohash.mk (big_endian_bytes field)) := by
  have hdec : hash_string_to_bytes field = .ok (big_endian_bytes field) :=
    (bytes_loop_of_hex 20 field hf.1 hf.2).1
  simp [Record.identifier, hdec]

theorem read_hashes_loop_record (pre suf : List Int) (r : Record) (hwf : r.well_formed)
    (st : ParserState) :
    read_hashes_loop (pre ++ (r.render ++ suf)) r.render.length pre.length st =
      .ok { lnum := st.lnum + 1,
            hashes := st.hashes ++ r.identifier.toList,
            cerr := st.cerr } := by
  cases r with
  | ident payload field =>
      obtain ⟨hp, hf⟩ := hwf
      have hmid : (10 : Int) ∉ payload ++ 124 :: field := by
        intro h
        rcases List.mem_append.mp h with h | h
        · exact hp h
        · rcases List.mem_cons.mp h with h | h
          · exact absurd h (by decide)
          · exact (hex_char_ne_delimiter 10 (hf.2 10 h)).2 rfl
      have hbuf : pre ++ ((Record.ident payload field).render ++ suf) =
          pre ++ ((payload ++ 124 :: field) ++ 10 :: suf) := by
        simp [Record.render]
      have hbuf2 : pre ++ ((payload ++ 124 :: field) ++ 10 :: suf) =
          (pre ++ payload) ++ 124 :: (field ++ 10 :: suf) := by
        simp
      have hlen : (Record.ident payload field).render.length =
          (payload ++ 124 :: field).length + 1 := by
        simp [Record.render]; omega
      have hc : pre.length + (payload ++ 124 :: field).length = (pre ++ payload).length + 41 := by
        simp [hf.1]; omega
      rw [hbuf, hlen, read_hashes_loop_add,
        read_hashes_loop_skip (payload ++ 124 :: field) (10 :: suf) hmid pre st]
      simp only [Except.bind, read_hashes_loop, bind]
      rw [hbuf2, hc, read_hashes_body_ident (pre ++ payload) field suf st hf,
        identifier_of_well_formed payload field hf]
      rfl
  | bare payload =>
      have hp : (10 : Int) ∉ payload := hwf
      have hmid : (10 : Int) ∉ payload ++ [124] := by
        intro h
        rcases List.mem_append.mp h with h | h
        · exact hp h
        · simp at h
      have hbuf : pre ++ ((Record.bare payload).render ++ suf) =
          pre ++ ((payload ++ [124]) ++ 10 :: suf) := by
        simp [Record.render]
      have hbuf2 : pre ++ ((payload ++ [124]) ++ 10 :: suf) =
          (pre ++ payload) ++ 124 :: 10 :: suf := by
        simp
      have hlen : (Record.bare payload).render.length = (payload ++ [124]).length + 1 := by
        simp [Record.render]
      have hc : pre.length + (payload ++ [124]).length = (pre ++ payload).length + 1 := by
        simp; omega
      rw [hbuf, hlen, read_hashes_loop_add,
        read_hashes_loop_skip (payload ++ [124]) (10 :: suf) hmid pre st]
      simp only [Except.bind, read_hashes_loop, bind]
      rw [hbuf2, hc, read_hashes_body_bare (pre ++ payload) suf st]
      simp [Record.identifier]

theorem read_hashes_loop_records (records : List Record) :
    (∀ r ∈ records, r.well_formed) → ∀ (pre : List Int) (st : ParserState),
      read_hashes_loop (pre ++ render_file records) (render_file records).length pre.length st =
        .ok { lnum := st.lnum + records.length,
              hashes := st.hashes ++ records.filterMap Record.identifier,
              cerr := st.cerr } := by
  induction records with
  | nil => intro _ pre st; simp [render_file, read_hashes_loop]
  | cons r rs ih =>
      intro hwf pre st
      have hr : r.well_formed := hwf r (by simp)
      have hrs : ∀ x ∈ rs, x.well_formed := fun x hx => hwf x (by simp [hx])
      have hfile : render_file (r :: rs) = r.render ++ render_file rs := by
        simp [render_file]
      rw [hfile, List.length_append, read_hashes_loop_add,
        read_hashes_loop_record pre (render_file rs) r hr st]
      simp only [Except.bind]
      have := ih hrs (pre ++ r.render)
        { lnum := st.lnum + 1, hashes := st.hashes ++ r.identifier.toList, cerr := st.cerr }
      rw [List.length_append, List.append_assoc] at this
      rw [this]
      cases hid : r.identifier <;>
        simp [List.filterMap_cons, hid, Nat.add_assoc, Nat.add_comm 1]

/-! ## When the reads of the parser stay inside the byte range -/

theorem bytes_loop_in_range (n : Nat) (s : List Int) (hlen : 2 * n ≤ s.length) :
    (∃ b, hash_string_to_bytes_loop n s = .ok b) ∨
      hash_string_to_bytes_loop n s = .error Failure.invalid_hash := by
  obtain ⟨hok, herr⟩ := bytes_loop_throws_iff n s hlen
  by_cases h : ∃ ch ∈ s.take (2 * n), 123 ≤ ch
  · exact Or.inr (herr h)
  · left
    apply hok
    intro ch hch
    by_contra hlt
    exact h ⟨ch, hch, by omega⟩

theorem deref_in_range (buf : List Int) (c k : Nat) (hk : k ≤ c) (hc : c < buf.length) :
    ∃ x, buf[c - k]? = some x ∧ deref buf c k = .ok x := by
  have hlt : c - k < buf.length := by omega
  exact ⟨buf[c - k], List.getElem?_eq_getElem hlt,
    deref_of_getElem? buf c k _ hk (List.getElem?_eq_getElem hlt)⟩

theorem read_hashes_body_in_range (buf : List Int) (c : Nat) (st : ParserState)
    (hc : c < buf.length)
    (h : buf[c]? = some 10 → (1 ≤ c ∧ buf[c - 1]? = some 124) ∨ 41 ≤ c) :
    ∃ st1, read_hashes_body buf c st = .ok st1 := by
  obtain ⟨x, hx, hd0⟩ := deref_in_range buf c 0 (Nat.zero_le _) hc
  rw [Nat.sub_zero] at hx
  by_cases hnl : x = 10
  · subst hnl
    rcases h hx with ⟨h1, hprev⟩ | h41
    · have hd1 := deref_of_getElem? buf c 1 124 h1 hprev
      refine ⟨{ lnum := st.lnum + 1, hashes := st.hashes, cerr := st.cerr }, ?_⟩
      simp [read_hashes_body, hd0, hd1, bind, Except.bind, pure, Except.pure]
    · obtain ⟨y, -, hd1⟩ := deref_in_range buf c 1 (by omega) hc
      obtain ⟨z, -, hd41⟩ := deref_in_range buf c 41 h41 hc
      by_cases hy : y = 124
      · refine ⟨{ lnum := st.lnum + 1, hashes := st.hashes, cerr := st.cerr }, ?_⟩
        simp [read_hashes_body, hd0, hd1, hy, bind, Except.bind, pure, Except.pure]
      · by_cases hz : z = 124
        · have hl : 2 * 20 ≤ (buf.drop (c - 40)).length := by
            rw [List.length_drop]; omega
          rcases bytes_loop_in_range 20 _ hl with ⟨b, hb⟩ | herr
          · have hb2 : hash_string_to_bytes (buf.drop (c - 40)) = .ok b := hb
            refine ⟨{ lnum := st.lnum + 1, hashes := st.hashes ++ [infohash.mk b],
                      cerr := st.cerr }, ?_⟩
            simp [read_hashes_body, hd0, hd1, hd41, hy, hz, hb2, bind, Except.bind, pure,
              Except.pure]
          · have herr2 : hash_string_to_bytes (buf.drop (c - 40)) =
                .error Failure.invalid_hash := herr
            refine ⟨{ lnum := st.lnum + 1, hashes := st.hashes,
                      cerr := st.cerr ++ [Diagnostic.invalid_chars (st.lnum + 1)] }, ?_⟩
            simp [read_hashes_body, hd0, hd1, hd41, hy, hz, herr2, bind, Except.bind, pure,
              Except.pure]
        · refine ⟨{ lnum := st.lnum + 1, hashes := st.hashes,
                    cerr := st.cerr ++ [Diagnostic.invalid_format (st.lnum + 1)] }, ?_⟩
          simp [read_hashes_body, hd0, hd1, hd41, hy, hz, bind, Except.bind, pure,
            Except.pure]
  · exact ⟨st, read_hashes_body_other buf c x st hx hnl⟩

theorem read_hashes_loop_in_range (buf : List Int)
    (h : ∀ p : Nat, buf[p]? = some 10 → (1 ≤ p ∧ buf[p - 1]? = some 124) ∨ 41 ≤ p) (n : Nat) :
    ∀ (c : Nat) (st : ParserState), c + n ≤ buf.length →
      ∃ st1, read_hashes_loop buf n c st = .ok st1 := by
  induction n with
  | zero => intro c st _; exact ⟨st, rfl⟩
  | succ n ih =>
      intro c st hc
      obtain ⟨st1, h1⟩ := read_hashes_body_in_range buf c st (by omega) (h c)
      obtain ⟨st2, h2⟩ := ih (c + 1) st1 (by omega)
      exact ⟨st2, by simp [read_hashes_loop, h1, h2, bind, Except.bind]⟩

/-- The parser returns normally, without a read outside the byte range, on every byte
range in which each newline is at offset 41 or more, or follows a `|`. -/
theorem read_hashes_in_range (buf : List Int) (hashes : List infohash)
    (h : ∀ p : Nat, buf[p]? = some 10 → (1 ≤ p ∧ buf[p - 1]? = some 124) ∨ 41 ≤ p) :
    ∃ st, read_hashes buf hashes = .ok st :=
  read_hashes_loop_in_range buf h buf.length 0 _ (by omega)

/-! ## The reporting loop when ten records exist -/

theorem string_loop_total (n : Nat) :
    ∀ bs : List Nat, n ≤ bs.length → ∃ s, hash_bytes_to_string_loop n bs = .ok s := by
  induction n with
  | zero => intro bs _; exact ⟨[], rfl⟩
  | succ n ih =>
      intro bs hlen
      cases bs with
      | nil => simp at hlen
      | cons b rest =>
          obtain ⟨s, hs⟩ := ih rest (by simp at hlen; omega)
          exact ⟨char_of_nibble ((b / 16) % 256) :: char_of_nibble (b % 16) :: s, by
            simp [hash_bytes_to_string_loop, hs, bind, Except.bind, pure, Except.pure]⟩

theorem report_body_in_range (h_in h_out : List infohash) (i : Nat)
    (x o : infohash) (hx : h_in[i]? = some x) (ho : h_out[i]? = some o)
    (hxl : 20 ≤ x.bytes.length) (hol : 20 ≤ o.bytes.length) :
    ∃ s_out s_in, hash_bytes_to_string o.bytes = .ok s_out ∧
      hash_bytes_to_string x.bytes = .ok s_in ∧
      report_body h_in h_out i = .ok (s_out ++ arrow ++ s_in) := by
  obtain ⟨s_out, e1⟩ := string_loop_total 20 o.bytes hol
  obtain ⟨s_in, e2⟩ := string_loop_total 20 x.bytes hxl
  have e1' : hash_bytes_to_string o.bytes = .ok s_out := e1
  have e2' : hash_bytes_to_string x.bytes = .ok s_in := e2
  exact ⟨s_out, s_in, e1', e2', by
    simp [report_body, hx, ho, e1', e2', bind, Except.bind, pure, Except.pure]⟩

theorem report_loop_in_range (h_in h_out : List infohash)
    (hin : ∀ h ∈ h_in, 20 ≤ h.bytes.length) (hout : ∀ h ∈ h_out, 20 ≤ h.bytes.length)
    (n : Nat) :
    ∀ (i : Nat) (out : List (List Int)), i + n ≤ h_in.length → i + n ≤ h_out.length →
      ∃ lines, report_loop h_in h_out n i out = .ok (out ++ lines) ∧ lines.length = n ∧
        ∀ j, j < n → ∃ l, lines[j]? = some l ∧ report_body h_in h_out (i + j) = .ok l := by
  induction n with
  | zero =>
      intro i out _ _
      exact ⟨[], by simp [report_loop], rfl, fun j hj => absurd hj (Nat.not_lt_zero j)⟩
  | succ n ih =>
      intro i out h1 h2
      have hi1 : i < h_in.length := by omega
      have hi2 : i < h_out.length := by omega
      obtain ⟨s_out, s_in, -, -, hb⟩ := report_body_in_range h_in h_out i h_in[i] h_out[i]
        (List.getElem?_eq_getElem hi1) (List.getElem?_eq_getElem hi2)
        (hin _ (List.getElem_mem hi1)) (hout _ (List.getElem_mem hi2))
      obtain ⟨lines, hl, hlen, hj⟩ := ih (i + 1) (out ++ [s_out ++ arrow ++ s_in])
        (by omega) (by omega)
      refine ⟨(s_out ++ arrow ++ s_in) :: lines, ?_, by simp [hlen], ?_⟩
      · simp only [report_loop, hb, bind, Except.bind]
        rw [hl]
        simp
      · intro j hjn
        cases j with
        | zero => exact ⟨s_out ++ arrow ++ s_in, by simp, hb⟩
        | succ j =>
            obtain ⟨l, e1, e2⟩ := hj j (by omega)
            refine ⟨l, by simpa using e1, ?_⟩
            rw [show i + (j + 1) = i + 1 + j by omega]
            exact e2

/-- The reporting loop with ten records or more: it returns normally with exactly ten
lines, the line at every position `i < 10` being the encoding of `h_out[i]`, the arrow,
and the encoding of `h_in[i]`. -/
theorem report_ten (h_in h_out : List infohash)
    (hin : ∀ h ∈ h_in, 20 ≤ h.bytes.length) (hout : ∀ h ∈ h_out, 20 ≤ h.bytes.length)
    (h1 : 10 ≤ h_in.length) (h2 : 10 ≤ h_out.length) :
    ∃ lines, report h_in h_out = .ok lines ∧ lines.length = 10 ∧
      ∀ i, i < 10 → ∃ l, lines[i]? = some l ∧ report_body h_in h_out i = .ok l := by
  obtain ⟨lines, hl, hlen, hj⟩ :=
    report_loop_in_range h_in h_out hin hout 10 0 [] (by omega) (by omega)
  refine ⟨lines, by simpa [report] using hl, hlen, ?_⟩
  intro i hi
  obtain ⟨l, e1, e2⟩ := hj i hi
  exact ⟨l, e1, by simpa using e2⟩

/-! ## A reported line between two identifier records -/

theorem read_hashes_body_format (buf : List Int) (c : Nat) (st : ParserState) (y z : Int)
    (h0 : buf[c]? = some 10) (h1 : 41 ≤ c)
    (hy : buf[c - 1]? = some y) (hy2 : y ≠ 124)
    (hz : buf[c - 41]? = some z) (hz2 : z ≠ 124) :
    read_hashes_body buf c st =
      .ok { lnum := st.lnum + 1, hashes := st.hashes,
            cerr := st.cerr ++ [Diagnostic.invalid_format (st.lnum + 1)] } := by
  have hd0 := deref_of_getElem? buf c 0 10 (Nat.zero_le _) (by simpa using h0)
  have hd1 := deref_of_getElem? buf c 1 y (by omega) hy
  have hd41 := deref_of_getElem? buf c 41 z h1 hz
  simp [read_hashes_body, hd0, hd1, hd41, hy2, hz2, bind, Except.bind, pure, Except.pure]

theorem read_hashes_body_chars (buf : List Int) (c : Nat) (st : ParserState) (y : Int)
    (h0 : buf[c]? = some 10) (h1 : 41 ≤ c) (hc : c < buf.length)
    (hy : buf[c - 1]? = some y) (hy2 : y ≠ 124)
    (hz : buf[c - 41]? = some 124)
    (hbad : ∃ ch ∈ (buf.drop (c - 40)).take 40, 123 ≤ ch) :
    read_hashes_body buf c st =
      .ok { lnum := st.lnum + 1, hashes := st.hashes,
            cerr := st.cerr ++ [Diagnostic.invalid_chars (st.lnum + 1)] } := by
  have hd0 := deref_of_getElem? buf c 0 10 (Nat.zero_le _) (by simpa using h0)
  have hd1 := deref_of_getElem? buf c 1 y (by omega) hy
  have hd41 := deref_of_getElem? buf c 41 124 h1 hz
  have hl : 40 ≤ (buf.drop (c - 40)).length := by
    rw [List.length_drop]; omega
  have herr := (hash_string_to_bytes_throws_iff (buf.drop (c - 40)) hl).1.mpr hbad
  simp [read_hashes_body, hd0, hd1, hd41, hy2, herr, bind, Except.bind, pure, Except.pure]

theorem read_hashes_sandwich (r1 r3 : Record) (m : List Int) (hashes : List infohash)
    (f : ParserState → ParserState)
    (h1 : r1.well_formed) (h3 : r3.well_formed) (hm : (10 : Int) ∉ m)
    (hbody : ∀ st, read_hashes_body (r1.render ++ (m ++ 10 :: r3.render))
      (r1.render.length + m.length) st = .ok (f st)) :
    read_hashes (r1.render ++ (m ++ 10 :: r3.render)) hashes =
      .ok { lnum := (f { lnum := 1, hashes := hashes ++ r1.identifier.toList, cerr := [] }).lnum + 1,
            hashes := (f { lnum := 1, hashes := hashes ++ r1.identifier.toList,
                           cerr := [] }).hashes ++ r3.identifier.toList,
            cerr := (f { lnum := 1, hashes := hashes ++ r1.identifier.toList, cerr := [] }).cerr } := by
  unfold read_hashes
  have hlen : (r1.render ++ (m ++ 10 :: r3.render)).length =
      r1.render.length + (m.length + (1 + r3.render.length)) := by
    simp; omega
  rw [hlen, read_hashes_loop_add]
  have e1 := read_hashes_loop_record [] (m ++ 10 :: r3.render) r1 h1
    { lnum := 0, hashes := hashes, cerr := [] }
  simp only [List.nil_append, List.length_nil] at e1
  rw [e1]
  simp only [Except.bind, Nat.zero_add]
  rw [read_hashes_loop_add, read_hashes_loop_skip m (10 :: r3.render) hm r1.render]
  simp only [Except.bind]
  rw [read_hashes_loop_add]
  simp only [read_hashes_loop, bind, hbody, Except.bind]
  have e3 := read_hashes_loop_record (r1.render ++ (m ++ [10])) [] r3 h3
    (f { lnum := 0 + 1, hashes := hashes ++ r1.identifier.toList, cerr := [] })
  simp only [List.append_nil, List.length_append, List.length_cons, List.length_nil,
    List.append_assoc, List.singleton_append] at e3
  rw [show r1.render.length + m.length + 1 = r1.render.length + (m.length + (0 + 1)) by omega, e3]

theorem render_ident_tail (p f : List Int) (hf : is_hex_string f) (k : Nat) (hk : k ≤ 40) :
    ∃ z, (Record.ident p f).render[p.length + 1 + k]? = some z ∧ z ≠ 124 := by
  have hr : (Record.ident p f).render = p ++ 124 :: (f ++ [10]) := by simp [Record.render]
  rw [hr, List.getElem?_append_right (by omega),
    show p.length + 1 + k - p.length = k + 1 by omega, List.getElem?_cons_succ]
  by_cases h40 : k < 40
  · have hlt : k < f.length := by rw [hf.1]; exact h40
    refine ⟨f[k], ?_, (hex_char_ne_delimiter _ (hf.2 _ (List.getElem_mem hlt))).1⟩
    rw [List.getElem?_append_left hlt]
    exact List.getElem?_eq_getElem hlt
  · refine ⟨10, ?_, by decide⟩
    rw [List.getElem?_append_right (by rw [hf.1]; omega)]
    have : k - f.length = 0 := by rw [hf.1]; omega
    rw [this]
    rfl

/-- A line without the delimiter 41 bytes before its newline (and not ending in `|`),
between two well-formed identifier records, is reported as line 2 and skipped:
`read_hashes` returns the identifiers of lines 1 and 3, in that order, and the one
diagnostic. -/
theorem read_hashes_isolates_missing_delimiter (p1 f1 p3 f3 m : List Int)
    (hashes : List infohash)
    (h1 : (Record.ident p1 f1).well_formed) (h3 : (Record.ident p3 f3).well_formed)
    (hm : (10 : Int) ∉ m) (hlast : m[m.length - 1]? ≠ some 124)
    (hdel : m.length < 41 ∨ m[m.length - 41]? ≠ some 124) :
    read_hashes ((Record.ident p1 f1).render ++ (m ++ 10 :: (Record.ident p3 f3).render))
        hashes =
      .ok { lnum := 3,
            hashes := hashes ++ [infohash.mk (big_endian_bytes f1),
              infohash.mk (big_endian_bytes f3)],
            cerr := [Diagnostic.invalid_format 2] } := by
  have hA : (Record.ident p1 f1).render.length = p1.length + 42 := by
    simp [Record.render, h1.2.1]
  have hbody : ∀ st, read_hashes_body
      ((Record.ident p1 f1).render ++ (m ++ 10 :: (Record.ident p3 f3).render))
      ((Record.ident p1 f1).render.length + m.length) st =
        .ok { lnum := st.lnum + 1, hashes := st.hashes,
              cerr := st.cerr ++ [Diagnostic.invalid_format (st.lnum + 1)] } := by
    intro st
    have e0 : ((Record.ident p1 f1).render ++ (m ++ 10 :: (Record.ident p3 f3).render))[
        (Record.ident p1 f1).render.length + m.length]? = some 10 := by
      rw [List.getElem?_append_right (by omega), Nat.add_sub_cancel_left,
        List.getElem?_append_right (Nat.le_refl _)]
      simp
    obtain ⟨y, ey, hy⟩ : ∃ y, ((Record.ident p1 f1).render ++
        (m ++ 10 :: (Record.ident p3 f3).render))[
          (Record.ident p1 f1).render.length + m.length - 1]? = some y ∧ y ≠ 124 := by
      by_cases hm0 : m.length = 0
      · obtain ⟨z, ez, hz⟩ := render_ident_tail p1 f1 h1.2 40 (Nat.le_refl _)
        refine ⟨z, ?_, hz⟩
        rw [List.getElem?_append_left (by omega)]
        rw [show (Record.ident p1 f1).render.length + m.length - 1 = p1.length + 1 + 40 by omega]
        exact ez
      · have hlt : m.length - 1 < m.length := by omega
        refine ⟨m[m.length - 1], ?_, ?_⟩
        · rw [List.getElem?_append_right (by omega),
            show (Record.ident p1 f1).render.length + m.length - 1 -
              (Record.ident p1 f1).render.length = m.length - 1 by omega,
            List.getElem?_append_left hlt]
          exact List.getElem?_eq_getElem hlt
        · intro h
          apply hlast
          rw [List.getElem?_eq_getElem hlt, h]
    obtain ⟨z, ez, hz⟩ : ∃ z, ((Record.ident p1 f1).render ++
        (m ++ 10 :: (Record.ident p3 f3).render))[
          (Record.ident p1 f1).render.length + m.length - 41]? = some z ∧ z ≠ 124 := by
      by_cases hm41 : m.length < 41
      · obtain ⟨z, ez, hz⟩ := render_ident_tail p1 f1 h1.2 m.length (by omega)
        refine ⟨z, ?_, hz⟩
        rw [List.getElem?_append_left (by omega)]
        rw [show (Record.ident p1 f1).render.length + m.length - 41 =
          p1.length + 1 + m.length by omega]
        exact ez
      · have hlt : m.length - 41 < m.length := by omega
        have hne : m[m.length - 41]? ≠ some 124 := by
          rcases hdel with h | h
          · exact absurd h hm41
          · exact h
        refine ⟨m[m.length - 41], ?_, ?_⟩
        · rw [List.getElem?_append_right (by omega),
            show (Record.ident p1 f1).render.length + m.length - 41 -
              (Record.ident p1 f1).render.length = m.length - 41 by omega,
            List.getElem?_append_left hlt]
          exact List.getElem?_eq_getElem hlt
        · intro h
          apply hne
          rw [List.getElem?_eq_getElem hlt, h]
    exact read_hashes_body_format _ _ st y z e0 (by omega) ey hy ez hz
  rw [read_hashes_sandwich (Record.ident p1 f1) (Record.ident p3 f3) m hashes _ h1 h3 hm hbody,
    identifier_of_well_formed p1 f1 h1.2, identifier_of_well_formed p3 f3 h3.2]
  simp

/-- A line with the delimiter in place whose 40-character field holds a character the
decoder rejects (a code of 123 or more), between two well-formed identifier records, is
reported as line 2 and skipped. -/
theorem read_hashes_isolates_rejected_field (p1 f1 p2 f2 p3 f3 : List Int)
    (hashes : List infohash)
    (h1 : (Record.ident p1 f1).well_formed) (h3 : (Record.ident p3 f3).well_formed)
    (hp2 : (10 : Int) ∉ p2) (hf2 : (10 : Int) ∉ f2) (hlen : f2.length = 40)
    (hlast : f2[39]? ≠ some 124) (hbad : ∃ ch ∈ f2, 123 ≤ ch) :
    read_hashes ((Record.ident p1 f1).render ++
        ((p2 ++ 124 :: f2) ++ 10 :: (Record.ident p3 f3).render)) hashes =
      .ok { lnum := 3,
            hashes := hashes ++ [infohash.mk (big_endian_bytes f1),
              infohash.mk (big_endian_bytes f3)],
            cerr := [Diagnostic.invalid_chars 2] } := by
  have hm : (10 : Int) ∉ p2 ++ 124 :: f2 := by
    intro h
    rcases List.mem_append.mp h with h | h
    · exact hp2 h
    · rcases List.mem_cons.mp h with h | h
      · exact absurd h (by decide)
      · exact hf2 h
  have hml : (p2 ++ 124 :: f2).length = p2.length + 41 := by simp [hlen]
  have hbody : ∀ st, read_hashes_body
      ((Record.ident p1 f1).render ++ ((p2 ++ 124 :: f2) ++ 10 :: (Record.ident p3 f3).render))
      ((Record.ident p1 f1).render.length + (p2 ++ 124 :: f2).length) st =
        .ok { lnum := st.lnum + 1, hashes := st.hashes,
              cerr := st.cerr ++ [Diagnostic.invalid_chars (st.lnum + 1)] } := by
    intro st
    have hbuf : (Record.ident p1 f1).render ++
        ((p2 ++ 124 :: f2) ++ 10 :: (Record.ident p3 f3).render) =
        ((Record.ident p1 f1).render ++ p2) ++
          124 :: (f2 ++ 10 :: (Record.ident p3 f3).render) := by
      simp
    have hc : (Record.ident p1 f1).render.length + (p2 ++ 124 :: f2).length =
        ((Record.ident p1 f1).render ++ p2).length + 41 := by
      rw [hml, List.length_append]; omega
    rw [hbuf, hc]
    generalize (Record.ident p1 f1).render ++ p2 = L
    generalize (Record.ident p3 f3).render = C
    have h39 : 39 < f2.length := by omega
    have e0 : (L ++ 124 :: (f2 ++ 10 :: C))[L.length + 41]? = some 10 := by
      rw [List.getElem?_append_right (by omega),
        show L.length + 41 - L.length = 40 + 1 by omega, List.getElem?_cons_succ,
        List.getElem?_append_right (by omega)]
      simp [hlen]
    have e1 : (L ++ 124 :: (f2 ++ 10 :: C))[L.length + 41 - 1]? = some f2[39] := by
      rw [List.getElem?_append_right (by omega),
        show L.length + 41 - 1 - L.length = 39 + 1 by omega, List.getElem?_cons_succ,
        List.getElem?_append_left h39]
      exact List.getElem?_eq_getElem h39
    have e41 : (L ++ 124 :: (f2 ++ 10 :: C))[L.length + 41 - 41]? = some 124 := by
      rw [List.getElem?_append_right (by omega)]
      simp
    have hne : f2[39] ≠ 124 := by
      intro h
      apply hlast
      rw [List.getElem?_eq_getElem h39, h]
    have hdrop : ((L ++ 124 :: (f2 ++ 10 :: C)).drop (L.length + 41 - 40)).take 40 = f2 := by
      rw [show L.length + 41 - 40 = L.length + 1 by omega, List.drop_append_eq_append_drop,
        List.drop_of_length_le (by omega)]
      simp [← hlen]
    exact read_hashes_body_chars _ _ st f2[39] e0 (by omega) (by simp; omega) e1 hne e41
      (by rw [hdrop]; exact hbad)
  rw [read_hashes_sandwich (Record.ident p1 f1) (Record.ident p3 f3) (p2 ++ 124 :: f2) hashes _
    h1 h3 hm hbody,
    identifier_of_well_formed p1 f1 h1.2, identifier_of_well_formed p3 f3 h3.2]
  simp

/-! ## When the parser or the reporting loop reads outside its input -/

theorem deref_error (buf : List Int) (c k : Nat) (e : Failure)
    (h : deref buf c k = .error e) : e = Failure.out_of_range := by
  unfold deref at h
  repeat' split at h
  all_goals (cases h <;> rfl)

theorem read_hashes_body_error (buf : List Int) (c : Nat) (st : ParserState) (e : Failure)
    (h : read_hashes_body buf c st = .error e) : e = Failure.out_of_range := by
  unfold read_hashes_body at h
  simp only [bind, Except.bind, pure, Except.pure] at h
  repeat' split at h
  all_goals (cases h <;> first | rfl | exact deref_error _ _ _ _ (by assumption))

theorem read_hashes_body_before_start (buf : List Int) (c : Nat) (st : ParserState)
    (h0 : buf[c]? = some 10) (h41 : c < 41)
    (hprev : c = 0 ∨ buf[c - 1]? ≠ some 124) :
    read_hashes_body buf c st = .error Failure.out_of_range := by
  have hd0 := deref_of_getElem? buf c 0 10 (Nat.zero_le _) (by simpa using h0)
  have hd41 : deref buf c 41 = .error Failure.out_of_range := by
    simp [deref, show ¬ 41 ≤ c by omega]
  by_cases hc : c = 0
  · have hd1 : deref buf c 1 = .error Failure.out_of_range := by simp [deref, hc]
    simp [read_hashes_body, hd0, hd1, bind, Except.bind]
  · have hlt : c < buf.length := by
      by_contra hge
      rw [List.getElem?_eq_none (by omega)] at h0
      cases h0
    obtain ⟨y, hy, hd1⟩ := deref_in_range buf c 1 (by omega) hlt
    have hne : y ≠ 124 := by
      intro h
      rcases hprev with h' | h'
      · exact hc h'
      · exact h' (by rw [hy, h])
    simp [read_hashes_body, hd0, hd1, hd41, hne, bind, Except.bind]

theorem read_hashes_loop_before_start (buf : List Int) (p : Nat)
    (h0 : buf[p]? = some 10) (h41 : p < 41) (hprev : p = 0 ∨ buf[p - 1]? ≠ some 124)
    (n : Nat) :
    ∀ (c : Nat) (st : ParserState), c ≤ p → p < c + n →
      read_hashes_loop buf n c st = .error Failure.out_of_range := by
  induction n with
  | zero => intro c st h1 h2; omega
  | succ n ih =>
      intro c st h1 h2
      simp only [read_hashes_loop, bind]
      cases hb : read_hashes_body buf c st with
      | error e =>
          rw [read_hashes_body_error buf c st e hb]
          rfl
      | ok st1 =>
          simp only [Except.bind]
          have hne : c ≠ p := by
            intro hcp
            rw [hcp, read_hashes_body_before_start buf p st h0 h41 hprev] at hb
            cases hb
          exact ih (c + 1) st1 (by omega) (by omega)

/-- The parser reads before the start of the byte range on every byte range that has a
newline at an offset below 41 which is at offset 0 or does not follow a `|`. -/
theorem read_hashes_before_start (buf : List Int) (hashes : List infohash) (p : Nat)
    (h0 : buf[p]? = some 10) (h41 : p < 41) (hprev : p = 0 ∨ buf[p - 1]? ≠ some 124) :
    read_hashes buf hashes = .error Failure.out_of_range := by
  have hlt : p < buf.length := by
    by_contra hge
    rw [List.getElem?_eq_none (by omega)] at h0
    cases h0
  exact read_hashes_loop_before_start buf p h0 h41 hprev buf.length 0 _ (Nat.zero_le _)
    (by omega)

theorem string_loop_error (n : Nat) :
    ∀ (bs : List Nat) (e : Failure), hash_bytes_to_string_loop n bs = .error e →
      e = Failure.out_of_range := by
  induction n with
  | zero => intro bs e h; cases h
  | succ n ih =>
      intro bs e h
      cases bs with
      | nil =>
          simp only [hash_bytes_to_string_loop] at h
          cases h
          rfl
      | cons b rest =>
          simp only [hash_bytes_to_string_loop, bind, Except.bind, pure, Except.pure] at h
          split at h
          · rename_i e2 he2
            cases h
            exact ih rest _ he2
          · cases h

theorem report_body_error (h_in h_out : List infohash) (i : Nat) (e : Failure)
    (h : report_body h_in h_out i = .error e) : e = Failure.out_of_range := by
  unfold report_body hash_bytes_to_string at h
  simp only [bind, Except.bind, pure, Except.pure] at h
  repeat' split at h
  all_goals (cases h <;> first | rfl | exact string_loop_error _ _ _ (by assumption))

theorem report_body_past_end (h_in h_out : List infohash) (i : Nat)
    (h : h_in.length ≤ i ∨ h_out.length ≤ i) :
    report_body h_in h_out i = .error Failure.out_of_range := by
  rcases h with h | h
  · cases ho : h_out[i]? with
    | none => simp [report_body, ho, bind, Except.bind]
    | some o =>
        cases hs : hash_bytes_to_string o.bytes with
        | error e =>
            have he : e = Failure.out_of_range := string_loop_error _ _ _ hs
            subst he
            simp [report_body, ho, hs, bind, Except.bind, pure, Except.pure]
        | ok s =>
            simp [report_body, ho, hs, List.getElem?_eq_none h, bind, Except.bind, pure,
              Except.pure]
  · simp [report_body, List.getElem?_eq_none h, bind, Except.bind]

theorem report_loop_past_end (h_in h_out : List infohash) (j : Nat)
    (hj : h_in.length ≤ j ∨ h_out.length ≤ j) (n : Nat) :
    ∀ (i : Nat) (out : List (List Int)), i ≤ j → j < i + n →
      report_loop h_in h_out n i out = .error Failure.out_of_range := by
  induction n with
  | zero => intro i out h1 h2; omega
  | succ n ih =>
      intro i out h1 h2
      simp only [report_loop, bind]
      cases hb : report_body h_in h_out i with
      | error e =>
          rw [report_body_error h_in h_out i e hb]
          rfl
      | ok l =>
          simp only [Except.bind]
          have hne : i ≠ j := by
            intro hij
            rw [hij, report_body_past_end h_in h_out j hj] at hb
            cases hb
          exact ih (i + 1) _ (by omega) (by omega)

/-- The reporting loop reads past the end of its sequences whenever fewer than ten
records exist. -/
theorem report_short (h_in h_out : List infohash)
    (h : h_in.length < 10 ∨ h_out.length < 10) :
    report h_in h_out = .error Failure.out_of_range :=
  report_loop_past_end h_in h_out 9 (by omega) 10 0 [] (Nat.zero_le _) (by omega)

theorem read_hashes_isolates_missing_delimiter_example :
    read_hashes ((Record.ident (chars "tracker")
          (chars "2aae6c35c94fcfb415dbe95f408b9ce91ee846ed")).render ++
        (chars "no delimiter here" ++ 10 :: (Record.ident (chars "tracker")
          (chars "da39a3ee5e6b4b0d3255bfef95601890afd80709")).render)) [] =
      .ok { lnum := 3,
            hashes := [] ++ [infohash.mk (big_endian_bytes
                (chars "2aae6c35c94fcfb415dbe95f408b9ce91ee846ed")),
              infohash.mk (big_endian_bytes (chars "da39a3ee5e6b4b0d3255bfef95601890afd80709"))],
            cerr := [Diagnostic.invalid_format 2] } :=
  read_hashes_isolates_missing_delimiter _ _ _ _ _ [] (by decide) (by decide) (by decide)
    (by decide) (by decide)

theorem read_hashes_isolates_rejected_field_example :
    read_hashes ((Record.ident (chars "tracker")
          (chars "2aae6c35c94fcfb415dbe95f408b9ce91ee846ed")).render ++
        ((chars "tracker" ++ 124 :: chars "2aae6c35c94fcfb415dbe95f408b9ce91ee846e~") ++
          10 :: (Record.ident (chars "tracker")
            (chars "da39a3ee5e6b4b0d3255bfef95601890afd80709")).render)) [] =
      .ok { lnum := 3,
            hashes := [] ++ [infohash.mk (big_endian_bytes
                (chars "2aae6c35c94fcfb415dbe95f408b9ce91ee846ed")),
              infohash.mk (big_endian_bytes (chars "da39a3ee5e6b4b0d3255bfef95601890afd80709"))],
            cerr := [Diagnostic.invalid_chars 2] } :=
  read_hashes_isolates_rejected_field _ _ _ _ _ _ [] (by decide) (by decide) (by decide)
    (by decide) (by decide) (by decide) ⟨126, by decide, by decide⟩

theorem report_ten_example :
    ∃ lines, report (List.replicate 12 scenario_hash)
        (main_transform sample_digest (List.replicate 12 scenario_hash)) = .ok lines ∧
      lines.length = 10 ∧
      ∀ i, i < 10 → ∃ l, lines[i]? = some l ∧
        report_body (List.replicate 12 scenario_hash)
          (main_transform sample_digest (List.replicate 12 scenario_hash)) i = .ok l :=
  report_ten _ _ (by decide) (by decide) (by decide) (by decide)

/-! ## Record parser: the claims -/

/-- C5. Parser correctness on well-formed files: when the byte range is the concatenation
of well-formed records (a newline-free payload followed by `|`, 40 hexadecimal digits and a
newline, or by a bare `|` and a newline), `read_hashes` returns normally, has counted one
line per record, has appended exactly the identifiers of the records, in file order, and
has written no diagnostic; an identifier record carries one identifier, the 20 bytes its
field decodes to, and an identifier-less record carries none. -/
theorem read_hashes_well_formed (records : List Record)
    (hwf : ∀ r ∈ records, r.well_formed) (hashes : List infohash) :
    read_hashes (render_file records) hashes =
        .ok { lnum := records.length,
              hashes := hashes ++ records.filterMap Record.identifier,
              cerr := [] } ∧
      (∀ payload field, Record.ident payload field ∈ records →
        hash_string_to_bytes field = .ok (big_endian_bytes field) ∧
        (big_endian_bytes field).length = 20 ∧
        (Record.ident payload field).identifier = some (infohash.mk (big_endian_bytes field))) ∧
      (∀ payload, (Record.bare payload).identifier = none) := by
  refine ⟨?_, ?_, fun _ => rfl⟩
  · have := read_hashes_loop_records records hwf [] { lnum := 0, hashes := hashes, cerr := [] }
    simpa [read_hashes] using this
  · intro payload field hmem
    have hf : is_hex_string field := (hwf _ hmem).2
    exact ⟨(bytes_loop_of_hex 20 field hf.1 hf.2).1, big_endian_bytes_length 20 field hf.1,
      identifier_of_well_formed payload field hf⟩

/-- C10. An unterminated final line is never inspected: appending a newline-free byte
string `t` to a byte range `buf` changes nothing in what `read_hashes` returns (the
identifiers, the diagnostics, the line count, or the failure). -/
theorem read_hashes_unterminated (buf t : List Int) (ht : (10 : Int) ∉ t)
    (hashes : List infohash) :
    read_hashes (buf ++ t) hashes = read_hashes buf hashes := by
  unfold read_hashes
  rw [List.length_append, read_hashes_loop_add,
    read_hashes_loop_append buf t buf.length 0 _ (by omega)]
  cases read_hashes_loop buf buf.length 0 { lnum := 0, hashes := hashes, cerr := [] } with
  | error e => rfl
  | ok st1 =>
      simp only [Except.bind, Nat.zero_add]
      have := read_hashes_loop_skip t [] ht buf st1
      simpa using this

theorem read_hashes_well_formed_witness :
    read_hashes (render_file sample_records) [] =
        .ok { lnum := sample_records.length,
              hashes := [] ++ sample_records.filterMap Record.identifier,
              cerr := [] } ∧
      (∀ payload field, Record.ident payload field ∈ sample_records →
        hash_string_to_bytes field = .ok (big_endian_bytes field) ∧
        (big_endian_bytes field).length = 20 ∧
        (Record.ident payload field).identifier = some (infohash.mk (big_endian_bytes field))) ∧
      (∀ payload, (Record.bare payload).identifier = none) :=
  read_hashes_well_formed sample_records (by decide) []

theorem read_hashes_unterminated_witness :
    read_hashes (render_file sample_records ++
        chars "tracker|da39a3ee5e6b4b0d3255bfef95601890afd80709") [] =
      read_hashes (render_file sample_records) [] :=
  read_hashes_unterminated _ _ (by decide) []

/-- C6 (evaluation of the code at a failing input). In `sandwich_file` the second line has
the delimiter 41 bytes before its newline and a 40-character field containing characters
that are not hexadecimal digits, between two well-formed identifier records; `read_hashes`
returns three identifiers, the second decoded from the malformed line, and writes no
diagnostic. -/
theorem read_hashes_sandwich_accepts_malformed :
    sandwich_line.length = 48 ∧ sandwich_line[7]? = some 124 ∧
      ¬ is_hex_string (sandwich_line.drop 8) ∧
      read_hashes sandwich_file [] =
        .ok { lnum := 3,
              hashes := [scenario_hash,
                infohash.mk [55, 250, 82, 210, 127, 181, 45, 55, 250, 82, 210, 127, 181, 45, 55,
                  250, 82, 210, 127, 181],
                infohash.mk [218, 57, 163, 238, 94, 107, 75, 13, 50, 85, 191, 239, 149, 96, 24,
                  144, 175, 216, 7, 9]],
              cerr := [] } :=
  ⟨rfl, rfl, by decide, rfl⟩

/-- C7. End-to-end scenario: on the three-line file of the scenario `read_hashes` returns
one identifier, the bytes `2a ae 6c 35 .. 46 ed`, and writes exactly one diagnostic, which
names line 3; the transform of that sequence has one element, the digest of `req2`
followed by those 20 bytes, for any digest function. -/
theorem end_to_end_scenario (Digest : List Nat → List Nat) :
    read_hashes scenario_file [] =
        .ok { lnum := 3, hashes := [scenario_hash], cerr := [Diagnostic.invalid_format 3] } ∧
      [Diagnostic.invalid_format 3].map Diagnostic.line = [3] ∧
      scenario_hash.bytes.length = 20 ∧
      main_transform Digest [scenario_hash] =
        [infohash.mk (Digest (req2 ++ scenario_hash.bytes))] :=
  ⟨rfl, rfl, rfl, rfl⟩

/-- C9 (evaluation of the code at failing inputs). On a byte range that is a single
newline, and on the byte range `tracker` followed by a newline, `read_hashes` reads
outside the byte range: before its first byte, at `c - 1` and at `c - 41`. -/
theorem read_hashes_reads_before_start :
    read_hashes (chars "\n") [] = .error Failure.out_of_range ∧
      deref (chars "\n") 0 1 = .error Failure.out_of_range ∧
      read_hashes (chars "tracker\n") [] = .error Failure.out_of_range ∧
      deref (chars "tracker\n") 7 1 = .ok 114 ∧
      deref (chars "tracker\n") 7 41 = .error Failure.out_of_range :=
  ⟨rfl, rfl, rfl, rfl, rfl⟩

/-! ## Reporter -/

/-- C8 (evaluation of the code at failing inputs). With no record at all, and with two
records, the reporting loop of `main` reads a position that is not in the sequences: it
does not stop after the records that exist. -/
theorem report_reads_past_end :
    report [] (main_transform sample_digest []) = .error Failure.out_of_range ∧
      report_body [] (main_transform sample_digest []) 0 = .error Failure.out_of_range ∧
      report sample_hashes (main_transform sample_digest sample_hashes) =
        .error Failure.out_of_range ∧
      (report_body sample_hashes (main_transform sample_digest sample_hashes) 1).isOk = true ∧
      report_body sample_hashes (main_transform sample_digest sample_hashes) 2 =
        .error Failure.out_of_range :=
  ⟨rfl, rfl, rfl, rfl, rfl⟩

end MseAttack
